import Mathlib

/-!
Verification of the path discovery and normalization pipeline of
`src/react_downloader.py` (class `ReactSourceDownloader`).

Strings of the Python program are embedded as `List Char`; the helper
functions below mirror the Python string primitives used by the source
(`str.split('/')`, `'/'.join`, `str.lstrip`, `str.startswith`,
`str.endswith`, the `in` substring test and `str.lower`).  The main
functions `_clean_source_path`, `_determine_file_type` and
`_parse_source_map` are translated statement by statement from the source.
-/

/-- Python `s.split('/')`: e.g. `"" ↦ [""]`, `"/" ↦ ["", ""]`,
`"a/b" ↦ ["a", "b"]`. -/
def splitSlash : List Char → List (List Char)
  | [] => [[]]
  | c :: cs =>
    if c = '/' then [] :: splitSlash cs
    else (c :: (splitSlash cs).headD []) :: (splitSlash cs).tail

/-- Python `'/'.join(parts)`. -/
def joinSlash : List (List Char) → List Char
  | [] => []
  | [s] => s
  | s :: ss => s ++ '/' :: joinSlash ss

/-- Python `s.lower()` (ASCII, as produced by the program's inputs). -/
def lowerStr (s : List Char) : List Char := s.map Char.toLower

/-- Line 164-165: `if source_path.startswith('webpack://'): source_path = source_path[10:]`. -/
def stripWebpack (p : List Char) : List Char :=
  if "webpack://".data <+: p then p.drop 10 else p

/-- Line 175: `parts[0].endswith(('.js', '.ts', '.jsx', '.tsx', '.css'))`. -/
def hasSrcExt (s : List Char) : Bool :=
  decide (".js".data <:+ s) || decide (".ts".data <:+ s) || decide (".jsx".data <:+ s) ||
  decide (".tsx".data <:+ s) || decide (".css".data <:+ s)

/-- Lines 168-181: strip a leading `./`, or else drop a first path segment
that looks like a project-name segment. -/
def stripProjectSegment (p : List Char) : List Char :=
  if "./".data <+: p then p.drop 2
  else if '/' ∈ p then
    let parts := splitSlash p
    if parts.length > 1 ∧ hasSrcExt (parts.headD []) = false then
      if parts.headD [] = "src".data ∨ parts.headD [] = ".".data ∨
         parts.headD [] = "..".data ∨ (parts.headD []).length > 20 then
        joinSlash parts.tail
      else p
    else p
  else p

/-- Lines 184-185: `source_path.lstrip('./')` then `source_path.lstrip('/')`
(Python `lstrip` removes every leading character belonging to the given set). -/
def lstripDotSlash (p : List Char) : List Char :=
  (p.dropWhile (fun c => c == '.' || c == '/')).dropWhile (fun c => c == '/')

/-- Lines 189-195: bare-filename folder inference from common React patterns. -/
def inferFolders (p : List Char) : List Char :=
  if '/' ∉ p ∧ p ≠ [] then
    if "App.".data <+: p ∨ "index.".data <+: p then "src/".data ++ p
    else if "component".data <+: p ∨ "Component".data <+: p then "src/components/".data ++ p
    else if ".css".data <:+ p then "src/styles/".data ++ p
    else p
  else p

/-- Lines 159-197: `_clean_source_path(source_path)`. -/
def _clean_source_path (source_path : List Char) : List Char :=
  let p1 := stripWebpack source_path
  let p2 := stripProjectSegment p1
  let p3 := lstripDotSlash p2
  let p4 := inferFolders p3
  if p4 ≠ [] then p4 else (splitSlash source_path).getLastD []

/-- Lines 199-218: `_determine_file_type(path)`. -/
def _determine_file_type (path : List Char) : String :=
  if ".jsx".data <:+ path then "jsx"
  else if ".tsx".data <:+ path then "tsx"
  else if ".ts".data <:+ path then "ts"
  else if ".js".data <:+ path then "js"
  else if ".css".data <:+ path then "css"
  else if ".scss".data <:+ path then "scss"
  else if ".sass".data <:+ path then "sass"
  else if ".json".data <:+ path then "json"
  else "unknown"

/-- One entry of the `discovered_files` ledger (the dict appended at
lines 128-134 and 148-154). -/
structure SourceRecord where
  path : List Char
  content : String
  ftype : String
  source : String
  original_path : List Char
deriving DecidableEq

/-- Lines 116-122: the combined noise-filter condition, with Python's
operator precedence (`and` binds tighter than `or`): the final
`or not any(skip in source_path.lower() ...)` is disjoined with the whole
conjunction that precedes it. -/
abbrev passesFilter (clean_path source_path : List Char) : Prop :=
  (clean_path ≠ [] ∧
    ¬("node_modules".data <:+: lowerStr clean_path) ∧
    ¬("webpack/".data <:+: clean_path) ∧
    ¬("(webpack)".data <:+: clean_path) ∧
    ¬("multi ".data <+: clean_path) ∧
    ¬("webpack:".data <+: clean_path) ∧
    clean_path ≠ source_path) ∨
  ¬("webpack-dev-server".data <:+: lowerStr source_path ∨
    "hot-dev-server".data <:+: lowerStr source_path ∨
    "webpack/hot".data <:+: lowerStr source_path)

/-- Lines 108-134: the body of the `for i, (source_path, content) in
enumerate(zip(sources, contents))` loop (the `sources`/`sourcesContent`
branch), acting on the `discovered_files` ledger. -/
def sourcemapStep (ledger : List SourceRecord) (e : List Char × Option String) :
    List SourceRecord :=
  match e.2 with
  | none => ledger
  | some content =>
    let clean_path := _clean_source_path e.1
    if passesFilter clean_path e.1 then
      let file_type := _determine_file_type clean_path
      if ∃ f ∈ ledger, f.path = clean_path then ledger
      else ledger ++ [⟨clean_path, content, file_type, "sourcemap", e.1⟩]
    else ledger

/-- Lines 137-154: the body of the `for source_path in source_map['sources']`
loop (the `sources`-only branch); `fetch` stands for
`_fetch_from_webpack_dev_server`, which returns text or `None`. -/
def devServerStep (fetch : List Char → Option String)
    (ledger : List SourceRecord) (source_path : List Char) : List SourceRecord :=
  let clean_path := _clean_source_path source_path
  if clean_path ≠ [] ∧ ¬("node_modules".data <:+: clean_path) ∧
      ¬(∃ f ∈ ledger, f.path = clean_path) then
    match fetch source_path with
    | some content =>
        ledger ++ [⟨clean_path, content, _determine_file_type clean_path,
                    "webpack-dev-server", source_path⟩]
    | none => ledger
  else ledger

/-- The failure raised at the parsing boundary of `_parse_source_map`
(`json.loads` raising on an unparsable payload, caught at line 156). -/
inductive MalformedMapError where
  | malformed
deriving DecidableEq

/-- A map payload as seen after the `json.loads` boundary: either invalid
(parsing raised) or a key/value object whose `sources` and `sourcesContent`
fields may each be present or absent. -/
inductive MapPayload where
  | invalid
  | obj (sources : Option (List (List Char)))
        (sourcesContent : Option (List (Option String)))

/-- Lines 99-155: the body of `_parse_source_map` before the surrounding
`try/except`: an invalid payload raises; otherwise the ledger is folded
over the map's entries (`zip(sources, contents)` pairs element-wise,
truncating to the shorter list, exactly as Python's `zip`). -/
def _parse_source_map_body (fetch : List Char → Option String)
    (payload : MapPayload) (ledger : List SourceRecord) :
    Except MalformedMapError (List SourceRecord) :=
  match payload with
  | .invalid => .error .malformed
  | .obj (some sources) (some contents) =>
    .ok (List.foldl sourcemapStep ledger (sources.zip contents))
  | .obj (some sources) none =>
    .ok (List.foldl (devServerStep fetch) ledger sources)
  | .obj none _ => .ok ledger

/-- Lines 97-157: `_parse_source_map` with its `try/except` — an error is
caught locally and leaves the ledger unchanged. -/
def _parse_source_map (fetch : List Char → Option String)
    (payload : MapPayload) (ledger : List SourceRecord) : List SourceRecord :=
  match _parse_source_map_body fetch payload ledger with
  | .ok l => l
  | .error _ => ledger

/-- Lines 73-95: `_analyze_source_maps` processes the retrieved map payloads
one bundle at a time, in the order the bundles were found. -/
def _analyze_source_maps (fetch : List Char → Option String)
    (maps : List MapPayload) (ledger : List SourceRecord) : List SourceRecord :=
  maps.foldl (fun l m => _parse_source_map fetch m l) ledger

/-! ### Lemmas about the string-primitive embeddings -/

lemma splitSlash_ne_nil (p : List Char) : splitSlash p ≠ [] := by
  cases p with
  | nil => simp [splitSlash]
  | cons c cs =>
    simp only [splitSlash]
    split <;> simp

lemma headD_mem {α : Type} (l : List α) (d : α) (h : l ≠ []) : l.headD d ∈ l := by
  cases l with
  | nil => exact absurd rfl h
  | cons a t => simp

lemma mem_splitSlash_no_slash : ∀ (p s : List Char), s ∈ splitSlash p → '/' ∉ s := by
  intro p
  induction p with
  | nil =>
    intro s hs
    simp only [splitSlash, List.mem_singleton] at hs
    simp [hs]
  | cons c cs ih =>
    intro s hs
    by_cases hc : c = '/'
    · simp only [splitSlash, if_pos hc] at hs
      rcases List.mem_cons.mp hs with h | h
      · simp [h]
      · exact ih s h
    · simp only [splitSlash, if_neg hc] at hs
      rcases List.mem_cons.mp hs with h | h
      · subst h
        intro hmem
        rcases List.mem_cons.mp hmem with h1 | h1
        · exact hc h1.symm
        · exact ih _ (headD_mem _ _ (splitSlash_ne_nil cs)) h1
      · exact ih s (List.mem_of_mem_tail h)

lemma getLastD_mem {α : Type} : ∀ (l : List α) (d : α), l ≠ [] → l.getLastD d ∈ l := by
  intro l
  induction l with
  | nil => intro d h; exact absurd rfl h
  | cons a t ih =>
    intro d _
    rw [List.getLastD_cons]
    cases ht : t with
    | nil => simp
    | cons b u => exact List.mem_cons_of_mem a (ht ▸ ih a (by simp [ht]))

lemma splitSlash_getLastD_ne_nil : ∀ (p : List Char), p ≠ [] → ¬(['/'] <:+ p) →
    (splitSlash p).getLastD [] ≠ [] := by
  intro p
  induction p with
  | nil => intro h; exact absurd rfl h
  | cons c cs ih =>
    intro _ hsuf
    by_cases hcs : cs = []
    · subst hcs
      by_cases hc : c = '/'
      · subst hc
        exact absurd (List.suffix_refl _) hsuf
      · simp [splitSlash, hc]
    · have hsuf' : ¬(['/'] <:+ cs) := fun h => hsuf (h.trans (List.suffix_cons c cs))
      have ihcs := ih hcs hsuf'
      by_cases hc : c = '/'
      · simp only [splitSlash, if_pos hc, List.getLastD_cons]
        exact ihcs
      · obtain ⟨hd, tl, hsplit⟩ : ∃ hd tl, splitSlash cs = hd :: tl := by
          cases h : splitSlash cs with
          | nil => exact absurd h (splitSlash_ne_nil cs)
          | cons a b => exact ⟨a, b, rfl⟩
        simp only [splitSlash, if_neg hc, hsplit, List.headD_cons, List.tail_cons,
          List.getLastD_cons]
        rw [hsplit, List.getLastD_cons] at ihcs
        cases tl with
        | nil => simp
        | cons t ts =>
          rw [List.getLastD_cons]
          rw [List.getLastD_cons] at ihcs
          exact ihcs

lemma head?_dropWhile_false (f : Char → Bool) :
    ∀ (l : List Char) (c : Char), (l.dropWhile f).head? = some c → f c = false := by
  intro l
  induction l with
  | nil => intro c h; simp [List.dropWhile] at h
  | cons a t ih =>
    intro c h
    by_cases hfa : f a = true
    · rw [List.dropWhile_cons_of_pos hfa] at h
      exact ih c h
    · rw [List.dropWhile_cons_of_neg hfa] at h
      simp only [List.head?_cons, Option.some.injEq] at h
      subst h
      exact Bool.eq_false_iff.mpr hfa

lemma splitSlash_append : ∀ (xs ys : List Char), '/' ∉ xs →
    splitSlash (xs ++ '/' :: ys) = xs :: splitSlash ys := by
  intro xs
  induction xs with
  | nil => intro ys _; simp [splitSlash]
  | cons c cs ih =>
    intro ys h
    rw [List.mem_cons] at h
    push_neg at h
    have hc : ¬(c = '/') := fun e => h.1 e.symm
    simp only [List.cons_append, splitSlash, if_neg hc, List.append_eq, ih ys h.2,
      List.headD_cons, List.tail_cons]

lemma splitSlash_no_slash : ∀ (xs : List Char), '/' ∉ xs → splitSlash xs = [xs] := by
  intro xs
  induction xs with
  | nil => intro _; rfl
  | cons c cs ih =>
    intro h
    rw [List.mem_cons] at h
    push_neg at h
    simp only [splitSlash, if_neg (fun e => h.1 (Eq.symm e)), ih h.2, List.headD_cons,
      List.tail_cons]

lemma inferFolders_nil : inferFolders [] = [] := by
  simp [inferFolders]

lemma inferFolders_head (p : List Char) (h : p.head? ≠ some '/') :
    (inferFolders p).head? ≠ some '/' := by
  unfold inferFolders
  split
  · split
    · intro hcon
      rw [show ("src/".data ++ p).head? = some 's' from rfl] at hcon
      exact absurd (Option.some.inj hcon) (by decide)
    · split
      · intro hcon
        rw [show ("src/components/".data ++ p).head? = some 's' from rfl] at hcon
        exact absurd (Option.some.inj hcon) (by decide)
      · split
        · intro hcon
          rw [show ("src/styles/".data ++ p).head? = some 's' from rfl] at hcon
          exact absurd (Option.some.inj hcon) (by decide)
        · exact h
  · exact h

lemma lstrip_of_head_app (b : List Char)
    (hp : "App.".data <+: b ∨ "index.".data <+: b) : lstripDotSlash b = b := by
  obtain ⟨c, t, hb, hc⟩ : ∃ c t, b = c :: t ∧ (c = 'A' ∨ c = 'i') := by
    rcases hp with h | h
    · obtain ⟨t, ht⟩ := h
      exact ⟨'A', "pp.".data ++ t, by rw [← ht]; rfl, Or.inl rfl⟩
    · obtain ⟨t, ht⟩ := h
      exact ⟨'i', "ndex.".data ++ t, by rw [← ht]; rfl, Or.inr rfl⟩
  subst hb
  rcases hc with rfl | rfl <;> rfl

lemma inferFolders_app (b : List Char) (hne : b ≠ []) (hs : '/' ∉ b)
    (hp : "App.".data <+: b ∨ "index.".data <+: b) :
    inferFolders b = "src/".data ++ b := by
  unfold inferFolders
  rw [if_pos ⟨hs, hne⟩, if_pos hp]

lemma clean_bare_app (b : List Char) (hne : b ≠ []) (hs : '/' ∉ b)
    (hp : "App.".data <+: b ∨ "index.".data <+: b) :
    _clean_source_path b = "src/".data ++ b := by
  have hw : stripWebpack b = b := by
    simp only [stripWebpack]
    rw [if_neg (fun h => hs (h.subset (by decide)))]
  have hps : stripProjectSegment b = b := by
    simp only [stripProjectSegment]
    rw [if_neg (fun h => hs (h.subset (by decide))), if_neg hs]
  have hls := lstrip_of_head_app b hp
  have hif := inferFolders_app b hne hs hp
  simp only [_clean_source_path, hw, hps, hls, hif]
  rw [if_pos (show "src/".data ++ b ≠ [] from fun h =>
    List.cons_ne_nil 's' ("rc/".data ++ b) h)]

lemma stripProjectSegment_src (b : List Char) (hs : '/' ∉ b) :
    stripProjectSegment ("src/".data ++ b) = b := by
  have hd : ¬("./".data <+: "src/".data ++ b) := by
    intro h
    obtain ⟨t, ht⟩ := h
    have ht' : '.' :: ("/".data ++ t) = 's' :: ("rc/".data ++ b) := ht
    exact absurd (List.cons.inj ht').1 (by decide)
  have hmem : '/' ∈ "src/".data ++ b := List.mem_append.mpr (Or.inl (by decide))
  have hsplit : splitSlash ("src/".data ++ b) = "src".data :: splitSlash b := by
    rw [show "src/".data ++ b = "src".data ++ '/' :: b from rfl,
      splitSlash_append _ _ (by decide)]
  simp only [stripProjectSegment, if_neg hd, if_pos hmem, hsplit,
    splitSlash_no_slash b hs, List.headD_cons, List.tail_cons]
  rw [if_pos (Or.inl trivial), if_pos ⟨by simp, by decide⟩]
  rfl

lemma clean_src_bare (b : List Char) (hne : b ≠ []) (hs : '/' ∉ b)
    (hp : "App.".data <+: b ∨ "index.".data <+: b) :
    _clean_source_path ("src/".data ++ b) = "src/".data ++ b := by
  have hw : stripWebpack ("src/".data ++ b) = "src/".data ++ b := by
    simp only [stripWebpack]
    rw [if_neg ?hweb]
    case hweb =>
      intro h
      obtain ⟨t, ht⟩ := h
      have ht' : 'w' :: ("ebpack://".data ++ t) = 's' :: ("rc/".data ++ b) := ht
      exact absurd (List.cons.inj ht').1 (by decide)
  have hps := stripProjectSegment_src b hs
  have hls := lstrip_of_head_app b hp
  have hif := inferFolders_app b hne hs hp
  simp only [_clean_source_path, hw, hps, hls, hif]
  rw [if_pos (show "src/".data ++ b ≠ [] from fun h =>
    List.cons_ne_nil 's' ("rc/".data ++ b) h)]

/-! ### Lemmas about the ledger fold -/

lemma sourcemapStep_shape (l : List SourceRecord) (e : List Char × Option String) :
    sourcemapStep l e = l ∨
      ∃ r : SourceRecord, r.path ∉ l.map SourceRecord.path ∧ sourcemapStep l e = l ++ [r] := by
  obtain ⟨sp, c⟩ := e
  cases c with
  | none => exact Or.inl rfl
  | some ct =>
    simp only [sourcemapStep]
    by_cases h1 : passesFilter (_clean_source_path sp) sp
    · rw [if_pos h1]
      by_cases h2 : ∃ f ∈ l, f.path = _clean_source_path sp
      · rw [if_pos h2]
        exact Or.inl rfl
      · rw [if_neg h2]
        refine Or.inr ⟨⟨_clean_source_path sp, ct, _determine_file_type (_clean_source_path sp),
          "sourcemap", sp⟩, ?_, rfl⟩
        intro hmem
        rw [List.mem_map] at hmem
        obtain ⟨f, hf, hfe⟩ := hmem
        exact h2 ⟨f, hf, hfe⟩
    · rw [if_neg h1]
      exact Or.inl rfl

lemma devServerStep_shape (fetch : List Char → Option String) (l : List SourceRecord)
    (sp : List Char) :
    devServerStep fetch l sp = l ∨
      ∃ r : SourceRecord, r.path ∉ l.map SourceRecord.path ∧
        devServerStep fetch l sp = l ++ [r] := by
  simp only [devServerStep]
  by_cases h1 : _clean_source_path sp ≠ [] ∧
      ¬("node_modules".data <:+: _clean_source_path sp) ∧
      ¬(∃ f ∈ l, f.path = _clean_source_path sp)
  · rw [if_pos h1]
    cases hf : fetch sp with
    | none => exact Or.inl rfl
    | some ct =>
      refine Or.inr ⟨⟨_clean_source_path sp, ct, _determine_file_type (_clean_source_path sp),
        "webpack-dev-server", sp⟩, ?_, rfl⟩
      intro hmem
      rw [List.mem_map] at hmem
      obtain ⟨f, hfm, hfe⟩ := hmem
      exact h1.2.2 ⟨f, hfm, hfe⟩
  · rw [if_neg h1]
    exact Or.inl rfl

lemma foldl_step_preserve {ε : Type}
    (step : List SourceRecord → ε → List SourceRecord)
    (hs : ∀ l e, step l e = l ∨
      ∃ r : SourceRecord, r.path ∉ l.map SourceRecord.path ∧ step l e = l ++ [r]) :
    ∀ (es : List ε) (l : List SourceRecord),
      l <+: List.foldl step l es ∧
      ((l.map SourceRecord.path).Nodup → ((List.foldl step l es).map SourceRecord.path).Nodup) := by
  intro es
  induction es with
  | nil => exact fun l => ⟨List.prefix_rfl, fun h => h⟩
  | cons e es ih =>
    intro l
    rw [List.foldl_cons]
    rcases hs l e with h | ⟨r, hr, h⟩
    · rw [h]
      exact ih l
    · rw [h]
      refine ⟨(List.prefix_append l [r]).trans (ih (l ++ [r])).1, fun hn => (ih (l ++ [r])).2 ?_⟩
      rw [List.map_append, List.nodup_append]
      refine ⟨hn, by simp, ?_⟩
      intro x hx hy
      simp only [List.map_cons, List.map_nil, List.mem_singleton] at hy
      subst hy
      exact hr hx

/-! ### Lemmas about zip truncation -/

lemma zip_trunc_left {α β : Type} : ∀ (s : List α) (c : List β) (e : List α),
    s.length = c.length → (s ++ e).zip c = s.zip c := by
  intro s
  induction s with
  | nil =>
    intro c e h
    obtain rfl : c = [] := by
      cases c with
      | nil => rfl
      | cons b bs => simp at h
    simp
  | cons a s ih =>
    intro c e h
    cases c with
    | nil => simp at h
    | cons b c =>
      simp only [List.cons_append, List.zip_cons_cons]
      rw [ih c e (by simpa using h)]

lemma zip_trunc_right {α β : Type} : ∀ (s : List α) (c : List β) (e : List β),
    s.length = c.length → s.zip (c ++ e) = s.zip c := by
  intro s
  induction s with
  | nil => intro c e h; simp
  | cons a s ih =>
    intro c e h
    cases c with
    | nil => simp at h
    | cons b c =>
      simp only [List.cons_append, List.zip_cons_cons]
      rw [ih c e (by simpa using h)]

/-! ### Claim theorems -/

/-- C1: the noise filter does NOT reject vendor/bundler-internal paths.
Because `and` binds tighter than `or` in the condition at lines 116-122, any
entry whose original path lacks a dev-server marker passes the filter, so a
map whose sources are `webpack://my-app/node_modules/react/index.js` and
`multi ./src/index.js` yields a candidate record for each — contradicting
the comment `Skip node_modules and webpack internal files` above that code
and the claimed filtering behavior. -/
theorem noise_filter_defeated :
    _parse_source_map (fun _ => none)
      (.obj (some ["webpack://my-app/node_modules/react/index.js".data,
                   "multi ./src/index.js".data])
            (some [some "reactVendorSource", some "multiEntrySource"])) [] =
      [⟨"my-app/node_modules/react/index.js".data, "reactVendorSource", "js", "sourcemap",
        "webpack://my-app/node_modules/react/index.js".data⟩,
       ⟨"multi ./src/index.js".data, "multiEntrySource", "js", "sourcemap",
        "multi ./src/index.js".data⟩] := by decide

/-- C2 (counterexample): `_clean_source_path` returns the empty string on the
non-empty input `"/"`, and returns `".."` (which begins with `'.'`) on the
non-empty input `".."` — refuting both the non-emptiness and the
no-leading-dot guarantees of the claim. -/
theorem clean_source_path_empty_output :
    _clean_source_path "/".data = [] ∧ _clean_source_path "..".data = "..".data := by
  exact ⟨rfl, rfl⟩

/-- C2 (amended): `_clean_source_path` is total; for every non-empty input
that does not end in `'/'` the result is non-empty, and the result never
begins with `'/'`.  (The fallback last-segment result can begin with `'.'`,
and for inputs ending in `'/'` the fallback can be empty.) -/
theorem clean_source_path_total_nonempty (p : List Char) (hne : p ≠ [])
    (hsuf : ¬(['/'] <:+ p)) :
    _clean_source_path p ≠ [] ∧ (_clean_source_path p).head? ≠ some '/' := by
  simp only [_clean_source_path]
  by_cases hq : inferFolders (lstripDotSlash (stripProjectSegment (stripWebpack p))) = []
  · rw [if_neg (not_not_intro hq)]
    refine ⟨splitSlash_getLastD_ne_nil p hne hsuf, ?_⟩
    intro hcon
    have hmem := getLastD_mem (splitSlash p) [] (splitSlash_ne_nil p)
    exact mem_splitSlash_no_slash p _ hmem (List.mem_of_mem_head? hcon)
  · rw [if_pos hq]
    refine ⟨hq, ?_⟩
    apply inferFolders_head
    intro hcon
    have := head?_dropWhile_false (fun c => c == '/')
      (List.dropWhile (fun c => c == '.' || c == '/') (stripProjectSegment (stripWebpack p)))
      '/' hcon
    simp at this

/-- C2 (witness): the amended statement instantiated at the input `"a.js"`. -/
theorem clean_source_path_total_nonempty_witness :
    _clean_source_path "a.js".data ≠ [] ∧ (_clean_source_path "a.js".data).head? ≠ some '/' :=
  clean_source_path_total_nonempty "a.js".data (by decide) (by decide)

/-- C3 (counterexample): normalizing `webpack://my-app/./src/App.js` does not
give `src/App.js`. -/
theorem clean_webpack_scoped_path_counterexample :
    _clean_source_path "webpack://my-app/./src/App.js".data ≠ "src/App.js".data := by decide

/-- C3 (amended): normalizing `webpack://my-app/./src/App.js` yields
`my-app/./src/App.js`: the scheme prefix is stripped, but the short first
segment `my-app` is kept (lines 179-181 treat it as a real folder) and the
interior `./` is preserved. -/
theorem clean_webpack_scoped_path :
    _clean_source_path "webpack://my-app/./src/App.js".data = "my-app/./src/App.js".data := by
  decide

/-- C4: the ledger invariant of `_parse_source_map`: path-distinctness is
preserved by processing any map; a candidate whose normalized path is already
present leaves the ledger unchanged (first-seen wins); and two candidates
normalizing to the same path give exactly one record retaining the first
candidate's content and kind. -/
theorem ledger_dedup_first_seen :
    (∀ fetch M ledger, (ledger.map SourceRecord.path).Nodup →
      ((_parse_source_map fetch M ledger).map SourceRecord.path).Nodup) ∧
    (∀ ledger sp c, (∃ f ∈ ledger, f.path = _clean_source_path sp) →
      sourcemapStep ledger (sp, c) = ledger) ∧
    _parse_source_map (fun _ => none)
      (.obj (some ["a.js".data, "./a.js".data]) (some [some "A", some "B"])) [] =
      [⟨"a.js".data, "A", "js", "sourcemap", "a.js".data⟩] := by
  refine ⟨?_, ?_, by decide⟩
  · intro fetch M ledger hn
    cases M with
    | invalid => exact hn
    | obj so co =>
      cases so with
      | none => exact hn
      | some s =>
        cases co with
        | none =>
          exact (foldl_step_preserve (devServerStep fetch) (devServerStep_shape fetch)
            s ledger).2 hn
        | some c =>
          exact (foldl_step_preserve sourcemapStep sourcemapStep_shape (s.zip c) ledger).2 hn
  · intro ledger sp c hdup
    cases c with
    | none => rfl
    | some ct =>
      simp only [sourcemapStep]
      by_cases h1 : passesFilter (_clean_source_path sp) sp
      · rw [if_pos h1, if_pos hdup]
      · rw [if_neg h1]

/-- C4 (witness): the invariant and the duplicate-drop instantiated on
concrete ledgers. -/
theorem ledger_dedup_first_seen_witness :
    ((_parse_source_map (fun _ => none) (.obj (some ["a.js".data]) (some [some "A"])) []).map
      SourceRecord.path).Nodup ∧
    sourcemapStep [⟨"a.js".data, "A", "js", "sourcemap", "a.js".data⟩]
      ("./a.js".data, some "B") = [⟨"a.js".data, "A", "js", "sourcemap", "a.js".data⟩] :=
  ⟨ledger_dedup_first_seen.1 (fun _ => none) (.obj (some ["a.js".data]) (some [some "A"])) []
      (by simp),
   ledger_dedup_first_seen.2.1 [⟨"a.js".data, "A", "js", "sourcemap", "a.js".data⟩]
      "./a.js".data (some "B")
      ⟨⟨"a.js".data, "A", "js", "sourcemap", "a.js".data⟩, by simp, by decide⟩⟩

/-- C5: processing a map only appends to the ledger (so the previous ledger
is a prefix of the result, unchanged and in order), and for two maps
processed in sequence from an empty ledger every record discovered in the
first precedes any record only discovered in the second. -/
theorem ledger_insertion_order :
    (∀ fetch M ledger, ledger <+: _parse_source_map fetch M ledger) ∧
    (∀ fetch M1 M2, _parse_source_map fetch M1 [] <+: _analyze_source_maps fetch [M1, M2] []) := by
  have hmain : ∀ fetch M ledger, ledger <+: _parse_source_map fetch M ledger := by
    intro fetch M ledger
    cases M with
    | invalid => exact List.prefix_rfl
    | obj so co =>
      cases so with
      | none => exact List.prefix_rfl
      | some s =>
        cases co with
        | none =>
          exact (foldl_step_preserve (devServerStep fetch) (devServerStep_shape fetch)
            s ledger).1
        | some c =>
          exact (foldl_step_preserve sourcemapStep sourcemapStep_shape (s.zip c) ledger).1
  exact ⟨hmain, fun fetch M1 M2 => hmain fetch M2 (_parse_source_map fetch M1 [])⟩

/-- C6 (counterexample): a payload that parses but lacks a `sources` list
raises no error at all — extraction returns the ledger unchanged with
success, so the claim's "fails ... exactly when ... lacks a sources list"
is false. -/
theorem missing_sources_raises_no_error :
    _parse_source_map_body (fun _ => none) (.obj none none) [] = .ok [] := rfl

/-- C6 (amended): extraction raises `MalformedMapError` exactly when the
payload is not valid structured data; the error is recovered locally (the
caller keeps the ledger unchanged and continues); a payload that parses but
lacks a `sources` list raises no error and yields no candidate records. -/
theorem malformed_map_error_boundary :
    (∀ fetch ledger, _parse_source_map_body fetch .invalid ledger = .error .malformed ∧
      _parse_source_map fetch .invalid ledger = ledger) ∧
    (∀ fetch so co ledger, ∃ l, _parse_source_map_body fetch (.obj so co) ledger = .ok l) ∧
    (∀ fetch co ledger, _parse_source_map_body fetch (.obj none co) ledger = .ok ledger) := by
  refine ⟨fun fetch ledger => ⟨rfl, rfl⟩, ?_, ?_⟩
  · intro fetch so co ledger
    cases so with
    | none => exact ⟨ledger, rfl⟩
    | some s =>
      cases co with
      | none => exact ⟨_, rfl⟩
      | some c => exact ⟨_, rfl⟩
  · intro fetch co ledger
    rfl

/-- C7: an entry whose paired content is absent produces no record, and the
map with `sources: ["a.js","b.js"]`, `sourcesContent: ["contentA", null]`
produces exactly one candidate record — for `a.js` with content `contentA`
— and none for `b.js`. -/
theorem absent_content_skipped :
    (∀ (ledger : List SourceRecord) (sp : List Char),
      sourcemapStep ledger (sp, none) = ledger) ∧
    _parse_source_map_body (fun _ => none)
      (.obj (some ["a.js".data, "b.js".data]) (some [some "contentA", none])) [] =
      .ok [⟨"a.js".data, "contentA", "js", "sourcemap", "a.js".data⟩] :=
  ⟨fun _ _ => rfl, rfl⟩

/-- C8: a bare filename (no `/`) beginning with `App.` or `index.` is placed
under a top-level `src/` folder by `_clean_source_path`. -/
theorem bare_filename_src_inference (b : List Char) (hne : b ≠ []) (hs : '/' ∉ b)
    (hp : "App.".data <+: b ∨ "index.".data <+: b) :
    _clean_source_path b = "src/".data ++ b :=
  clean_bare_app b hne hs hp

/-- C8 (witness): normalizing the bare filename `App.tsx` yields `src/App.tsx`. -/
theorem bare_filename_src_inference_witness :
    _clean_source_path "App.tsx".data = "src/App.tsx".data :=
  bare_filename_src_inference "App.tsx".data (by decide) (by decide) (Or.inl (by decide))

/-- C9: when `sources` and `sourcesContent` have unequal lengths, extraction
raises no error and silently truncates the pairing to the shorter list:
appending extra sources (or extra contents) beyond the matched length changes
nothing, so only the first `min` positions can produce records. -/
theorem zip_truncation_no_error (fetch : List Char → Option String)
    (ledger : List SourceRecord) (s : List (List Char)) (c : List (Option String))
    (extraS : List (List Char)) (extraC : List (Option String))
    (h : s.length = c.length) :
    _parse_source_map_body fetch (.obj (some (s ++ extraS)) (some c)) ledger =
      .ok (List.foldl sourcemapStep ledger (s.zip c)) ∧
    _parse_source_map_body fetch (.obj (some s) (some (c ++ extraC))) ledger =
      .ok (List.foldl sourcemapStep ledger (s.zip c)) := by
  constructor
  · simp only [_parse_source_map_body]
    rw [zip_trunc_left s c extraS h]
  · simp only [_parse_source_map_body]
    rw [zip_trunc_right s c extraC h]

/-- C9 (witness): truncation instantiated with one extra trailing source. -/
theorem zip_truncation_no_error_witness :
    _parse_source_map_body (fun _ => none)
      (.obj (some (["a.js".data] ++ ["b.js".data])) (some [some "A"])) [] =
      .ok (List.foldl sourcemapStep [] (["a.js".data].zip [some "A"])) ∧
    _parse_source_map_body (fun _ => none)
      (.obj (some ["a.js".data]) (some ([some "A"] ++ []))) [] =
      .ok (List.foldl sourcemapStep [] (["a.js".data].zip [some "A"])) :=
  zip_truncation_no_error (fun _ => none) [] ["a.js".data] [some "A"] ["b.js".data] [] rfl

/-- C10 (counterexample): `_clean_source_path` is not idempotent:
`./src/x.js` normalizes to `src/x.js`, which normalizes further to `x.js`. -/
theorem clean_not_idempotent :
    _clean_source_path (_clean_source_path "./src/x.js".data) ≠
      _clean_source_path "./src/x.js".data := by decide

/-- C10 (amended): normalization is idempotent on bare filenames beginning
with `App.` or `index.` (both passes land on the same `src/`-prefixed path),
though not on strings in general. -/
theorem clean_idempotent_on_app_index (b : List Char) (hne : b ≠ []) (hs : '/' ∉ b)
    (hp : "App.".data <+: b ∨ "index.".data <+: b) :
    _clean_source_path (_clean_source_path b) = _clean_source_path b := by
  rw [clean_bare_app b hne hs hp]
  exact clean_src_bare b hne hs hp

/-- C10 (witness): idempotence at the bare filename `index.js`. -/
theorem clean_idempotent_on_app_index_witness :
    _clean_source_path (_clean_source_path "index.js".data) =
      _clean_source_path "index.js".data :=
  clean_idempotent_on_app_index "index.js".data (by decide) (by decide) (Or.inr (by decide))
